import Mathlib

/-!
Verification of the concurrency-control core of the virtual-lab backend:
the per-key serializer (`KeyedMutex` in `src/lib/queue.ts`), the strict
optimistic-concurrency update transactions (events, users routes) and the
auto-merge update path (tasks route).

The JavaScript `Map<string, Promise<void>>` is embedded as an association
list without duplicate keys; promise identity is embedded as a numeric slot
id (each `run` call allocates exactly one `nextLock` promise, so the slot id
is the call's index in arrival order).  The asynchronous execution of many
interleaved `run` calls is embedded as a small-step state machine whose
events are the await points of `run`: entering (the synchronous prologue up
to `locks.set`), starting the body `fn` (the `await currentLock` resumes),
and finishing (the `finally` block: resolve `nextLock`, conditionally delete
the map entry).
-/

namespace VirtualLab

/-- Lookup in the association-list embedding of the JS `Map` (`locks.get`). -/
def lookupL (l : List (String × Nat)) (k : String) : Option Nat :=
  match l with
  | [] => none
  | (k', v) :: t => if k' = k then some v else lookupL t k

/-- `locks.set k v`: replace the binding for `k` if present, else append. -/
def setL (l : List (String × Nat)) (k : String) (v : Nat) : List (String × Nat) :=
  match l with
  | [] => [(k, v)]
  | (k', v') :: t => if k' = k then (k, v) :: t else (k', v') :: setL t k v

/-- `locks.delete k`: remove the binding for `k` (the first, and with the
no-duplicate-keys invariant the only, occurrence). -/
def eraseL (l : List (String × Nat)) (k : String) : List (String × Nat) :=
  match l with
  | [] => []
  | (k', v') :: t => if k' = k then t else (k', v') :: eraseL t k

theorem lookupL_setL_self (l : List (String × Nat)) (k : String) (v : Nat) :
    lookupL (setL l k v) k = some v := by
  induction l with
  | nil => simp [setL, lookupL]
  | cons hd t ih =>
    obtain ⟨k', v'⟩ := hd
    by_cases h : k' = k <;> simp [setL, lookupL, h, ih]

theorem lookupL_setL_ne (l : List (String × Nat)) (k k' : String) (v : Nat)
    (h : k ≠ k') : lookupL (setL l k v) k' = lookupL l k' := by
  induction l with
  | nil => simp [setL, lookupL, h]
  | cons hd t ih =>
    obtain ⟨k0, v0⟩ := hd
    by_cases h0 : k0 = k
    · subst h0
      simp [setL, lookupL, h]
    · simp only [setL, if_neg h0]
      by_cases h1 : k0 = k'
      · simp [lookupL, h1]
      · simp [lookupL, h1, ih]

theorem lookupL_of_not_memKey (l : List (String × Nat)) (k : String)
    (h : k ∉ l.map Prod.fst) : lookupL l k = none := by
  induction l with
  | nil => simp [lookupL]
  | cons hd t ih =>
    obtain ⟨k0, v0⟩ := hd
    simp only [List.map_cons, List.mem_cons] at h
    push_neg at h
    have hne : k0 ≠ k := fun hh => h.1 hh.symm
    simp only [lookupL, if_neg hne]
    exact ih h.2

theorem memKey_setL (l : List (String × Nat)) (k k' : String) (v : Nat)
    (h : k' ∈ (setL l k v).map Prod.fst) : k' ∈ l.map Prod.fst ∨ k' = k := by
  induction l with
  | nil => simpa [setL] using h
  | cons hd t ih =>
    obtain ⟨k0, v0⟩ := hd
    by_cases h0 : k0 = k
    · simp only [setL, if_pos h0] at h
      simp only [List.map_cons, List.mem_cons] at h ⊢
      rcases h with h | h
      · exact Or.inr h
      · exact Or.inl (Or.inr h)
    · simp only [setL, if_neg h0, List.map_cons, List.mem_cons] at h ⊢
      rcases h with h | h
      · exact Or.inl (Or.inl h)
      · rcases ih h with h' | h'
        · exact Or.inl (Or.inr h')
        · exact Or.inr h'

theorem memKey_eraseL (l : List (String × Nat)) (k k' : String)
    (h : k' ∈ (eraseL l k).map Prod.fst) : k' ∈ l.map Prod.fst := by
  induction l with
  | nil => simp [eraseL] at h
  | cons hd t ih =>
    obtain ⟨k0, v0⟩ := hd
    by_cases h0 : k0 = k
    · simp only [eraseL, if_pos h0] at h
      simp only [List.map_cons, List.mem_cons]
      exact Or.inr h
    · simp only [eraseL, if_neg h0, List.map_cons, List.mem_cons] at h ⊢
      rcases h with h | h
      · exact Or.inl h
      · exact Or.inr (ih h)

theorem lookupL_eraseL_self (l : List (String × Nat)) (k : String)
    (hnd : (l.map Prod.fst).Nodup) : lookupL (eraseL l k) k = none := by
  induction l with
  | nil => simp [eraseL, lookupL]
  | cons hd t ih =>
    obtain ⟨k0, v0⟩ := hd
    simp only [List.map_cons, List.nodup_cons] at hnd
    by_cases h0 : k0 = k
    · subst h0
      simp only [eraseL, if_pos rfl]
      exact lookupL_of_not_memKey t k0 hnd.1
    · simp only [eraseL, if_neg h0, lookupL, if_neg h0]
      exact ih hnd.2

theorem lookupL_eraseL_ne (l : List (String × Nat)) (k k' : String)
    (h : k ≠ k') : lookupL (eraseL l k) k' = lookupL l k' := by
  induction l with
  | nil => simp [eraseL, lookupL]
  | cons hd t ih =>
    obtain ⟨k0, v0⟩ := hd
    by_cases h0 : k0 = k
    · subst h0
      simp [eraseL, lookupL, h]
    · simp only [eraseL, if_neg h0]
      by_cases h1 : k0 = k'
      · simp [lookupL, h1]
      · simp [lookupL, h1, ih]

theorem keys_setL (l : List (String × Nat)) (k : String) (v : Nat)
    (hnd : (l.map Prod.fst).Nodup) : ((setL l k v).map Prod.fst).Nodup := by
  induction l with
  | nil => simp [setL]
  | cons hd t ih =>
    obtain ⟨k0, v0⟩ := hd
    simp only [List.map_cons, List.nodup_cons] at hnd
    by_cases h0 : k0 = k
    · subst h0
      simpa [setL] using hnd
    · simp only [setL, if_neg h0, List.map_cons, List.nodup_cons]
      refine ⟨?_, ih hnd.2⟩
      intro hmem
      rcases memKey_setL t k k0 v hmem with h | h
      · exact hnd.1 h
      · exact h0 h

theorem keys_eraseL (l : List (String × Nat)) (k : String)
    (hnd : (l.map Prod.fst).Nodup) : ((eraseL l k).map Prod.fst).Nodup := by
  induction l with
  | nil => simp [eraseL]
  | cons hd t ih =>
    obtain ⟨k0, v0⟩ := hd
    simp only [List.map_cons, List.nodup_cons] at hnd
    by_cases h0 : k0 = k
    · subst h0
      simpa [eraseL] using hnd.2
    · simp only [eraseL, if_neg h0, List.map_cons, List.nodup_cons]
      refine ⟨?_, ih hnd.2⟩
      intro hmem
      exact hnd.1 (memKey_eraseL t k k0 hmem)

/-! ## The `KeyedMutex` state machine

One `run(key, fn)` call goes through three phases.  `waiting`: the
synchronous prologue has executed (`currentLock` captured, `nextLock`
created and stored) and the call is suspended on `await currentLock`.
`running`: `fn()` has been invoked and has not settled.  `done`: `fn` has
settled, the `finally` block has executed (`resolveNext()` and the
conditional `locks.delete`). -/

inductive Phase
  | waiting
  | running
  | done
deriving DecidableEq, Repr

/-- One `run` call.  `prev` is the slot id of the promise captured as
`currentLock` (`none` when `locks.get(key)` was absent and the default
`Promise.resolve()` was used); the call's own `nextLock` promise has the
call's arrival index as its slot id.  `result` records the settled outcome
of `fn` (`some true` fulfilled, `some false` rejected), which is exactly
the outcome `run` itself delivers to its caller, since the `finally` block
does not alter the result. -/
structure Call where
  key : String
  prev : Option Nat
  phase : Phase
  result : Option Bool
deriving DecidableEq, Repr

/-- The mutex state: the `locks` map plus the record of all `run` calls so
far, in arrival order (call `i`'s `nextLock` promise has slot id `i`). -/
structure MState where
  locks : List (String × Nat)
  calls : List Call
deriving DecidableEq, Repr

def initState : MState := ⟨[], []⟩

/-- An await-point event of some `run` call. -/
inductive Ev
  | enter (k : String)
  | start (i : Nat)
  | finish (i : Nat) (ok : Bool)
deriving DecidableEq, Repr

/-- The promise captured as `currentLock` by call `i` is resolved:
`resolveNext` runs in the owner's `finally`, i.e. exactly when the owner's
phase becomes `done`.  A `none` prev is the pre-resolved `Promise.resolve()`. -/
def prevDone (s : MState) : Option Nat → Bool
  | none => true
  | some p =>
      match s.calls[p]? with
      | some d => d.phase == Phase.done
      | none => false

/-- One interleaving step of the collection of `run` calls, mirroring
`KeyedMutex.run` in `src/lib/queue.ts`:

* `enter k` — the synchronous prologue of a new call: capture
  `locks.get(key)` as `prev`, allocate `nextLock`, `locks.set(key, nextLock)`.
* `start i` — `await currentLock` resumes (enabled only when the awaited
  promise is resolved) and `fn()` is invoked.
* `finish i ok` — `fn` settles with outcome `ok`; the `finally` block runs:
  `resolveNext()`, then `locks.delete(key)` only when the stored promise is
  identity-equal (`===`) to this call's `nextLock`. -/
def step (s : MState) : Ev → Option MState
  | .enter k =>
      some { locks := setL s.locks k s.calls.length,
             calls := s.calls ++ [⟨k, lookupL s.locks k, Phase.waiting, none⟩] }
  | .start i =>
      match s.calls[i]? with
      | some c =>
          if c.phase == Phase.waiting && prevDone s c.prev then
            some { s with calls := s.calls.set i { c with phase := Phase.running } }
          else none
      | none => none
  | .finish i ok =>
      match s.calls[i]? with
      | some c =>
          if c.phase == Phase.running then
            some { locks := if lookupL s.locks c.key = some i then
                              eraseL s.locks c.key
                            else s.locks,
                   calls := s.calls.set i { c with phase := Phase.done,
                                                   result := some ok } }
          else none
      | none => none

/-- Run a trace of events from a state; `none` when some event is not
enabled (not a possible interleaving). -/
def reachFrom (s : MState) (tr : List Ev) : Option MState :=
  tr.foldl (fun acc e => acc.bind (fun st => step st e)) (some s)

def reach (tr : List Ev) : Option MState :=
  reachFrom initState tr

/-- `isLocked` from `src/lib/queue.ts`: `locks.has(key)`. -/
def isLocked (s : MState) (k : String) : Bool :=
  (lookupL s.locks k).isSome

/-- `getActiveLocksCount` from `src/lib/queue.ts`: `locks.size`. -/
def getActiveLocksCount (s : MState) : Nat :=
  s.locks.length

/-! ### Indexing helpers -/

theorem get?_append_lt {α : Type} (l l' : List α) (i : Nat) (h : i < l.length) :
    (l ++ l')[i]? = l[i]? := by
  simp [List.getElem?_append, h]

theorem get?_append_self {α : Type} (l : List α) (a : α) :
    (l ++ [a])[l.length]? = some a := by
  simp

theorem get?_set_self {α : Type} (l : List α) (i : Nat) (a : α)
    (h : i < l.length) : (l.set i a)[i]? = some a := by
  simp [List.getElem?_set, h]

theorem get?_set_ne {α : Type} (l : List α) (i j : Nat) (a : α)
    (h : i ≠ j) : (l.set i a)[j]? = l[j]? := by
  simp [List.getElem?_set, h]

theorem lt_of_get?_some {α : Type} {l : List α} {i : Nat} {b : α}
    (h : l[i]? = some b) : i < l.length :=
  (List.getElem?_eq_some.mp h).1

theorem get?_append_elim {α : Type} {l : List α} {a : α} {i : Nat} {b : α}
    (h : (l ++ [a])[i]? = some b) :
    (i < l.length ∧ l[i]? = some b) ∨ (i = l.length ∧ b = a) := by
  have hlen := lt_of_get?_some h
  simp only [List.length_append, List.length_cons, List.length_nil] at hlen
  rcases Nat.lt_or_ge i l.length with hi | hi
  · left
    exact ⟨hi, by rwa [get?_append_lt l [a] i hi] at h⟩
  · right
    have : i = l.length := Nat.le_antisymm (by omega) hi
    subst this
    rw [get?_append_self] at h
    exact ⟨rfl, (Option.some.injEq _ _ ▸ h).symm ▸ rfl⟩

theorem get?_set_elim {α : Type} {l : List α} {i j : Nat} {a b : α}
    (h : (l.set i a)[j]? = some b) :
    (j ≠ i ∧ l[j]? = some b) ∨ (j = i ∧ b = a ∧ i < l.length) := by
  by_cases hji : j = i
  · subst hji
    have hlen : j < l.length := by
      have := lt_of_get?_some h
      simpa using this
    rw [get?_set_self l j a hlen] at h
    exact Or.inr ⟨rfl, (Option.some.inj h).symm, hlen⟩
  · rw [get?_set_ne l i j a (fun hh => hji hh.symm)] at h
    exact Or.inl ⟨hji, h⟩

/-! ### The scheduling invariant -/

/-- The inductive invariant of the `KeyedMutex` state machine.  `fifo` is the
central property: whenever a later-arriving call on a key is past its
`waiting` phase, every earlier call on that key has fully completed — this
packages mutual exclusion, FIFO scheduling and non-overlap of execution
intervals into one instant-by-instant statement. -/
structure Inv (s : MState) : Prop where
  prevStruct : ∀ (i : Nat) (c : Call) (p : Nat), s.calls[i]? = some c →
      c.prev = some p →
      p < i ∧ (∃ d : Call, s.calls[p]? = some d ∧ d.key = c.key) ∧
      (∀ (j : Nat) (e : Call), p < j → j < i → s.calls[j]? = some e →
        e.key ≠ c.key)
  prevNone : ∀ (i : Nat) (c : Call) (j : Nat) (d : Call),
      s.calls[i]? = some c → c.prev = none →
      j < i → s.calls[j]? = some d → d.key = c.key → d.phase = Phase.done
  locksLast : ∀ (k : String) (i : Nat), lookupL s.locks k = some i →
      ∃ c : Call, s.calls[i]? = some c ∧ c.key = k ∧ c.phase ≠ Phase.done ∧
        (∀ (j : Nat) (d : Call), i < j → s.calls[j]? = some d → d.key ≠ k)
  locksNone : ∀ k : String, lookupL s.locks k = none →
      ∀ (j : Nat) (d : Call), s.calls[j]? = some d → d.key = k →
        d.phase = Phase.done
  fifo : ∀ (i : Nat) (c : Call) (j : Nat) (d : Call),
      s.calls[i]? = some c → s.calls[j]? = some d →
      j < i → d.key = c.key → c.phase ≠ Phase.waiting → d.phase = Phase.done
  keysNodup : (s.locks.map Prod.fst).Nodup

theorem inv_init : Inv initState := by
  constructor <;> intros <;> simp_all [initState, lookupL]

theorem set_call_elim {l : List Call} {i : Nat} {c : Call} (c' : Call)
    (hc : l[i]? = some c) :
    ∀ (m : Nat) (e' : Call), (l.set i c')[m]? = some e' →
      ∃ e : Call, l[m]? = some e ∧
        ((m ≠ i ∧ e' = e) ∨ (m = i ∧ e = c ∧ e' = c')) := by
  intro m e' hm
  rcases get?_set_elim hm with ⟨hne, hold⟩ | ⟨heq, hval, _⟩
  · exact ⟨e', hold, Or.inl ⟨hne, rfl⟩⟩
  · subst heq
    exact ⟨c, hc, Or.inr ⟨rfl, rfl, hval⟩⟩

theorem set_call_fwd {l : List Call} {i : Nat} {c : Call} (c' : Call)
    (hc : l[i]? = some c) :
    ∀ (m : Nat) (e : Call), l[m]? = some e →
      ∃ e' : Call, (l.set i c')[m]? = some e' ∧
        ((m ≠ i ∧ e' = e) ∨ (m = i ∧ e = c ∧ e' = c')) := by
  intro m e hm
  by_cases hmi : m = i
  · subst hmi
    have hec : e = c := by
      rw [hm] at hc
      exact Option.some.inj hc
    exact ⟨c', get?_set_self l m c' (lt_of_get?_some hm), Or.inr ⟨rfl, hec, rfl⟩⟩
  · refine ⟨e, ?_, Or.inl ⟨hmi, rfl⟩⟩
    rw [get?_set_ne l i m c' (fun h => hmi h.symm)]
    exact hm

/-- A fresh `run` call's synchronous prologue preserves the invariant. -/
theorem inv_enter (s : MState) (k : String) (hInv : Inv s) :
    Inv { locks := setL s.locks k s.calls.length,
          calls := s.calls ++ [⟨k, lookupL s.locks k, Phase.waiting, none⟩] } := by
  constructor
  case prevStruct =>
    intro i c p hi hp
    rcases get?_append_elim hi with ⟨hlt, hold⟩ | ⟨hieq, hceq⟩
    · obtain ⟨hpi, ⟨d, hd, hdk⟩, hmid⟩ := hInv.prevStruct i c p hold hp
      refine ⟨hpi, ⟨d, ?_, hdk⟩, ?_⟩
      · rw [get?_append_lt _ _ _ (lt_trans hpi hlt)]
        exact hd
      · intro j e hpj hji hj
        rcases get?_append_elim hj with ⟨_, hjold⟩ | ⟨hjeq, _⟩
        · exact hmid j e hpj hji hjold
        · omega
    · subst hceq
      have hlk : lookupL s.locks k = some p := hp
      obtain ⟨d, hd, hdk, _, hlast⟩ := hInv.locksLast k p hlk
      have hpn : p < s.calls.length := lt_of_get?_some hd
      refine ⟨by omega, ⟨d, ?_, hdk⟩, ?_⟩
      · rw [get?_append_lt _ _ _ hpn]
        exact hd
      · intro j e hpj hji hj
        rcases get?_append_elim hj with ⟨_, hjold⟩ | ⟨hjeq, _⟩
        · exact hlast j e hpj hjold
        · omega
  case prevNone =>
    intro i c j d hi hpnone hji hj hkey
    rcases get?_append_elim hi with ⟨hlt, hold⟩ | ⟨hieq, hceq⟩
    · rcases get?_append_elim hj with ⟨_, hjold⟩ | ⟨hjeq, _⟩
      · exact hInv.prevNone i c j d hold hpnone hji hjold hkey
      · omega
    · subst hceq
      have hlk : lookupL s.locks k = none := hpnone
      rcases get?_append_elim hj with ⟨_, hjold⟩ | ⟨hjeq, _⟩
      · exact hInv.locksNone k hlk j d hjold hkey
      · omega
  case locksLast =>
    intro k' i hlk
    by_cases hkk : k = k'
    · subst hkk
      rw [lookupL_setL_self] at hlk
      have hieq : i = s.calls.length := (Option.some.inj hlk).symm ▸ rfl
      subst hieq
      refine ⟨⟨k, lookupL s.locks k, Phase.waiting, none⟩, get?_append_self _ _,
        rfl, by simp, ?_⟩
      intro j d hij hj
      have := lt_of_get?_some hj
      simp only [List.length_append, List.length_cons, List.length_nil] at this
      omega
    · rw [lookupL_setL_ne _ _ _ _ hkk] at hlk
      obtain ⟨c, hc, hck, hcph, hlast⟩ := hInv.locksLast k' i hlk
      refine ⟨c, ?_, hck, hcph, ?_⟩
      · rw [get?_append_lt _ _ _ (lt_of_get?_some hc)]
        exact hc
      · intro j d hij hj
        rcases get?_append_elim hj with ⟨_, hjold⟩ | ⟨_, hjceq⟩
        · exact hlast j d hij hjold
        · subst hjceq
          exact hkk
  case locksNone =>
    intro k' hlk j d hj hdk
    by_cases hkk : k = k'
    · subst hkk
      rw [lookupL_setL_self] at hlk
      cases hlk
    · rw [lookupL_setL_ne _ _ _ _ hkk] at hlk
      rcases get?_append_elim hj with ⟨_, hjold⟩ | ⟨_, hjceq⟩
      · exact hInv.locksNone k' hlk j d hjold hdk
      · subst hjceq
        exact absurd hdk hkk
  case fifo =>
    intro i c j d hi hj hji hkey hph
    rcases get?_append_elim hi with ⟨hlt, hold⟩ | ⟨_, hceq⟩
    · rcases get?_append_elim hj with ⟨_, hjold⟩ | ⟨hjeq, _⟩
      · exact hInv.fifo i c j d hold hjold hji hkey hph
      · omega
    · subst hceq
      exact absurd rfl hph
  case keysNodup =>
    exact keys_setL _ _ _ hInv.keysNodup

/-- Resuming `await currentLock` (enabled only once the awaited promise is
resolved) and invoking `fn` preserves the invariant. -/
theorem inv_start (s : MState) (i : Nat) (c : Call) (hInv : Inv s)
    (hc : s.calls[i]? = some c) (hw : c.phase = Phase.waiting)
    (hpd : prevDone s c.prev = true) :
    Inv { s with calls := s.calls.set i { c with phase := Phase.running } } := by
  constructor
  case prevStruct =>
    intro m e p hm hp
    obtain ⟨e0, he0, hecase⟩ :=
      set_call_elim { c with phase := Phase.running } hc m e hm
    have hkp : e0.key = e.key ∧ e0.prev = e.prev := by
      rcases hecase with ⟨_, rfl⟩ | ⟨_, rfl, rfl⟩ <;> exact ⟨rfl, rfl⟩
    obtain ⟨hpm, ⟨d, hd, hdk⟩, hmid⟩ :=
      hInv.prevStruct m e0 p he0 (hkp.2.trans hp)
    obtain ⟨d', hd', hdcase⟩ :=
      set_call_fwd { c with phase := Phase.running } hc p d hd
    have hd'k : d'.key = d.key := by
      rcases hdcase with ⟨_, rfl⟩ | ⟨_, rfl, rfl⟩ <;> rfl
    refine ⟨hpm, ⟨d', hd', by rw [hd'k, hdk, hkp.1]⟩, ?_⟩
    intro j f hpj hjm hf
    obtain ⟨f0, hf0, hfcase⟩ :=
      set_call_elim { c with phase := Phase.running } hc j f hf
    have hfk : f0.key = f.key := by
      rcases hfcase with ⟨_, rfl⟩ | ⟨_, rfl, rfl⟩ <;> rfl
    have hmid' := hmid j f0 hpj hjm hf0
    rw [hfk, hkp.1] at hmid'
    exact hmid'
  case prevNone =>
    intro m e j d hm hpn hjm hd hkey
    obtain ⟨e0, he0, hecase⟩ :=
      set_call_elim { c with phase := Phase.running } hc m e hm
    obtain ⟨d0, hd0, hdcase⟩ :=
      set_call_elim { c with phase := Phase.running } hc j d hd
    have hkp : e0.key = e.key ∧ e0.prev = e.prev := by
      rcases hecase with ⟨_, rfl⟩ | ⟨_, rfl, rfl⟩ <;> exact ⟨rfl, rfl⟩
    have hdk0 : d0.key = d.key := by
      rcases hdcase with ⟨_, rfl⟩ | ⟨_, rfl, rfl⟩ <;> rfl
    have hdone := hInv.prevNone m e0 j d0 he0 (hkp.2.trans hpn) hjm hd0
      (by rw [hdk0, hkey, hkp.1])
    rcases hdcase with ⟨_, rfl⟩ | ⟨_, rfl, rfl⟩
    · exact hdone
    · rw [hw] at hdone
      simp at hdone
  case locksLast =>
    intro k m hlk
    obtain ⟨c0, hc0, hc0k, hc0ph, hlast⟩ := hInv.locksLast k m hlk
    obtain ⟨c0', hc0', hcase⟩ :=
      set_call_fwd { c with phase := Phase.running } hc m c0 hc0
    refine ⟨c0', hc0', ?_, ?_, ?_⟩
    · rcases hcase with ⟨_, rfl⟩ | ⟨_, rfl, rfl⟩
      · exact hc0k
      · exact hc0k
    · rcases hcase with ⟨_, rfl⟩ | ⟨_, rfl, rfl⟩
      · exact hc0ph
      · simp
    · intro j d hmj hd
      obtain ⟨d0, hd0, hdcase⟩ :=
        set_call_elim { c with phase := Phase.running } hc j d hd
      have hdk0 : d0.key = d.key := by
        rcases hdcase with ⟨_, rfl⟩ | ⟨_, rfl, rfl⟩ <;> rfl
      have := hlast j d0 hmj hd0
      rw [hdk0] at this
      exact this
  case locksNone =>
    intro k hlk j d hj hdk
    obtain ⟨d0, hd0, hdcase⟩ :=
      set_call_elim { c with phase := Phase.running } hc j d hj
    have hdk0 : d0.key = d.key := by
      rcases hdcase with ⟨_, rfl⟩ | ⟨_, rfl, rfl⟩ <;> rfl
    have hdone := hInv.locksNone k hlk j d0 hd0 (hdk0.trans hdk)
    rcases hdcase with ⟨_, rfl⟩ | ⟨_, rfl, rfl⟩
    · exact hdone
    · rw [hw] at hdone
      simp at hdone
  case fifo =>
    intro m e j d hm hj hjm hkey hph
    obtain ⟨e0, he0, hecase⟩ :=
      set_call_elim { c with phase := Phase.running } hc m e hm
    obtain ⟨d0, hd0, hdcase⟩ :=
      set_call_elim { c with phase := Phase.running } hc j d hj
    have hdk0 : d0.key = d.key := by
      rcases hdcase with ⟨_, hdd⟩ | ⟨_, hd0c, hdR⟩
      · rw [hdd]
      · rw [hd0c, hdR]
    rcases hecase with ⟨hmne, hee⟩ | ⟨hmi, he0c, heR⟩
    · -- the call at `m` is an untouched old call
      have hfifo := hInv.fifo m e0 j d0 he0 hd0 hjm
        (by rw [hdk0, hkey, hee]) (hee ▸ hph)
      rcases hdcase with ⟨hjne, hdd⟩ | ⟨hji, hd0c, hdR⟩
      · rw [hdd]
        exact hfifo
      · -- the earlier call at `j = i` is the one being started: the old
        -- `fifo` for the pair forces it to be done, contradicting `waiting`
        rw [hd0c, hw] at hfifo
        simp at hfifo
    · -- `m = i` is the started call: every earlier same-key call is done
      have hcm : s.calls[m]? = some c := by rw [hmi]; exact hc
      have hdph : d0.phase = Phase.done → d.phase = Phase.done := by
        rcases hdcase with ⟨_, hdd⟩ | ⟨hji, _, _⟩
        · rw [hdd]
          exact id
        · exact fun _ => absurd hjm (by omega)
      have hd0k : d0.key = c.key := by
        rw [hdk0, hkey, heR]
      cases hcp : c.prev with
      | none =>
          exact hdph (hInv.prevNone m c j d0 hcm hcp hjm hd0 hd0k)
      | some p =>
          rw [hcp] at hpd
          obtain ⟨dp, hdpe, hdpd⟩ :
              ∃ dp : Call, s.calls[p]? = some dp ∧ dp.phase = Phase.done := by
            cases hq : s.calls[p]? with
            | none => simp [prevDone, hq] at hpd
            | some dp =>
                refine ⟨dp, rfl, ?_⟩
                simp [prevDone, hq] at hpd
                exact hpd
          obtain ⟨hpi, ⟨d1, hd1, hd1k⟩, hmid⟩ := hInv.prevStruct m c p hcm hcp
          have hdpk : dp.key = c.key := by
            rw [hdpe] at hd1
            rw [Option.some.inj hd1]
            exact hd1k
          rcases Nat.lt_trichotomy j p with hjp | hjp | hjp
          · refine hdph (hInv.fifo p dp j d0 hdpe hd0 hjp
              (hd0k.trans hdpk.symm) ?_)
            rw [hdpd]
            simp
          · subst hjp
            rw [hd0] at hdpe
            exact hdph (by rw [Option.some.inj hdpe]; exact hdpd)
          · exact absurd hd0k (hmid j d0 hjp hjm hd0)
  case keysNodup =>
    exact hInv.keysNodup

/-- The `finally` block (resolve `nextLock`, then delete the map entry only
when it is identity-equal to this call's `nextLock`) preserves the
invariant, whatever the outcome `ok` of `fn` was. -/
theorem inv_finish (s : MState) (i : Nat) (c : Call) (ok : Bool) (hInv : Inv s)
    (hc : s.calls[i]? = some c) (hr : c.phase = Phase.running) :
    Inv { locks := if lookupL s.locks c.key = some i then eraseL s.locks c.key
                   else s.locks,
          calls := s.calls.set i { c with phase := Phase.done,
                                          result := some ok } } := by
  constructor
  case prevStruct =>
    intro m e p hm hp
    obtain ⟨e0, he0, hecase⟩ :=
      set_call_elim { c with phase := Phase.done, result := some ok } hc m e hm
    have hkp : e0.key = e.key ∧ e0.prev = e.prev := by
      rcases hecase with ⟨_, rfl⟩ | ⟨_, rfl, rfl⟩ <;> exact ⟨rfl, rfl⟩
    obtain ⟨hpm, ⟨d, hd, hdk⟩, hmid⟩ :=
      hInv.prevStruct m e0 p he0 (hkp.2.trans hp)
    obtain ⟨d', hd', hdcase⟩ :=
      set_call_fwd { c with phase := Phase.done, result := some ok } hc p d hd
    have hd'k : d'.key = d.key := by
      rcases hdcase with ⟨_, rfl⟩ | ⟨_, rfl, rfl⟩ <;> rfl
    refine ⟨hpm, ⟨d', hd', by rw [hd'k, hdk, hkp.1]⟩, ?_⟩
    intro j f hpj hjm hf
    obtain ⟨f0, hf0, hfcase⟩ :=
      set_call_elim { c with phase := Phase.done, result := some ok } hc j f hf
    have hfk : f0.key = f.key := by
      rcases hfcase with ⟨_, rfl⟩ | ⟨_, rfl, rfl⟩ <;> rfl
    have hmid' := hmid j f0 hpj hjm hf0
    rw [hfk, hkp.1] at hmid'
    exact hmid'
  case prevNone =>
    intro m e j d hm hpn hjm hd hkey
    obtain ⟨e0, he0, hecase⟩ :=
      set_call_elim { c with phase := Phase.done, result := some ok } hc m e hm
    obtain ⟨d0, hd0, hdcase⟩ :=
      set_call_elim { c with phase := Phase.done, result := some ok } hc j d hd
    have hkp : e0.key = e.key ∧ e0.prev = e.prev := by
      rcases hecase with ⟨_, hee⟩ | ⟨_, he0c, heR⟩
      · rw [hee]
        exact ⟨rfl, rfl⟩
      · rw [he0c, heR]
        exact ⟨rfl, rfl⟩
    have hdk0 : d0.key = d.key := by
      rcases hdcase with ⟨_, hdd⟩ | ⟨_, hd0c, hdR⟩
      · rw [hdd]
      · rw [hd0c, hdR]
    have hdone := hInv.prevNone m e0 j d0 he0 (hkp.2.trans hpn) hjm hd0
      (by rw [hdk0, hkey, hkp.1])
    rcases hdcase with ⟨_, hdd⟩ | ⟨_, _, hdR⟩
    · rw [hdd]
      exact hdone
    · rw [hdR]
  case locksLast =>
    intro k m hlk
    have hlk' : lookupL (if lookupL s.locks c.key = some i then
        eraseL s.locks c.key else s.locks) k = some m := hlk
    have hrest : ∀ cm : Call, s.calls[m]? = some cm → cm.key = k →
        cm.phase ≠ Phase.done → m ≠ i →
        (∀ (j : Nat) (dj : Call), m < j → s.calls[j]? = some dj → dj.key ≠ k) →
        ∃ cm' : Call,
          (s.calls.set i { c with phase := Phase.done,
                                  result := some ok })[m]? = some cm' ∧
          cm'.key = k ∧ cm'.phase ≠ Phase.done ∧
          ∀ (j : Nat) (dj : Call), m < j →
            (s.calls.set i { c with phase := Phase.done,
                                    result := some ok })[j]? = some dj →
            dj.key ≠ k := by
      intro cm hcm hcmk hcmph hmne hlast
      refine ⟨cm, ?_, hcmk, hcmph, ?_⟩
      · rw [get?_set_ne _ _ _ _ (fun h => hmne h.symm)]
        exact hcm
      · intro j dj hmj hdj
        obtain ⟨dj0, hdj0, hdjcase⟩ :=
          set_call_elim { c with phase := Phase.done, result := some ok }
            hc j dj hdj
        have hdjk : dj0.key = dj.key := by
          rcases hdjcase with ⟨_, hdd⟩ | ⟨_, hd0c, hdR⟩
          · rw [hdd]
          · rw [hd0c, hdR]
        have h2 := hlast j dj0 hmj hdj0
        rw [hdjk] at h2
        exact h2
    by_cases hcond : lookupL s.locks c.key = some i
    · rw [if_pos hcond] at hlk'
      by_cases hkc : k = c.key
      · rw [hkc, lookupL_eraseL_self _ _ hInv.keysNodup] at hlk'
        cases hlk'
      · rw [lookupL_eraseL_ne _ _ _ (fun h => hkc h.symm)] at hlk'
        obtain ⟨cm, hcm, hcmk, hcmph, hlast⟩ := hInv.locksLast k m hlk'
        have hmne : m ≠ i := by
          intro hmi
          rw [hmi, hc] at hcm
          have hccm := Option.some.inj hcm
          rw [← hccm] at hcmk
          exact hkc hcmk.symm
        exact hrest cm hcm hcmk hcmph hmne hlast
    · rw [if_neg hcond] at hlk'
      obtain ⟨cm, hcm, hcmk, hcmph, hlast⟩ := hInv.locksLast k m hlk'
      have hmne : m ≠ i := by
        intro hmi
        rw [hmi, hc] at hcm
        have hccm := Option.some.inj hcm
        apply hcond
        rw [← hcmk, ← hccm, hmi] at hlk'
        exact hlk'
      exact hrest cm hcm hcmk hcmph hmne hlast
  case locksNone =>
    intro k hlk j dj hj hdjk
    have hlk' : lookupL (if lookupL s.locks c.key = some i then
        eraseL s.locks c.key else s.locks) k = none := hlk
    obtain ⟨dj0, hdj0, hdjcase⟩ :=
      set_call_elim { c with phase := Phase.done, result := some ok } hc j dj hj
    rcases hdjcase with ⟨hjne, hdd⟩ | ⟨hji, hd0c, hdR⟩
    · rw [hdd] at hdjk ⊢
      by_cases hcond : lookupL s.locks c.key = some i
      · rw [if_pos hcond] at hlk'
        by_cases hkc : k = c.key
        · obtain ⟨cl, hcl, hclk, _, hlast⟩ := hInv.locksLast c.key i hcond
          rcases Nat.lt_trichotomy j i with hji2 | hji2 | hji2
          · refine hInv.fifo i c j dj0 hc hdj0 hji2 (hdjk.trans hkc) ?_
            rw [hr]
            simp
          · exact absurd hji2 hjne
          · exact absurd (hdjk.trans hkc) (hlast j dj0 hji2 hdj0)
        · rw [lookupL_eraseL_ne _ _ _ (fun h => hkc h.symm)] at hlk'
          exact hInv.locksNone k hlk' j dj0 hdj0 hdjk
      · rw [if_neg hcond] at hlk'
        exact hInv.locksNone k hlk' j dj0 hdj0 hdjk
    · rw [hdR]
  case fifo =>
    intro m e j d hm hj hjm hkey hph
    obtain ⟨e0, he0, hecase⟩ :=
      set_call_elim { c with phase := Phase.done, result := some ok } hc m e hm
    obtain ⟨d0, hd0, hdcase⟩ :=
      set_call_elim { c with phase := Phase.done, result := some ok } hc j d hj
    have hdk0 : d0.key = d.key := by
      rcases hdcase with ⟨_, hdd⟩ | ⟨_, hd0c, hdR⟩
      · rw [hdd]
      · rw [hd0c, hdR]
    rcases hdcase with ⟨hjne, hdd⟩ | ⟨hji, hd0c, hdR⟩
    · rw [hdd]
      rcases hecase with ⟨hmne, hee⟩ | ⟨hmi, he0c, heR⟩
      · exact hInv.fifo m e0 j d0 he0 hd0 hjm (by rw [hdk0, hkey, hee])
          (hee ▸ hph)
      · have hcm : s.calls[m]? = some c := by
          rw [hmi]
          exact hc
        refine hInv.fifo m c j d0 hcm hd0 hjm (by rw [hdk0, hkey, heR]) ?_
        rw [hr]
        simp
    · rw [hdR]
  case keysNodup =>
    show ((if lookupL s.locks c.key = some i then eraseL s.locks c.key
           else s.locks).map Prod.fst).Nodup
    by_cases hcond : lookupL s.locks c.key = some i
    · rw [if_pos hcond]
      exact keys_eraseL _ _ hInv.keysNodup
    · rw [if_neg hcond]
      exact hInv.keysNodup

/-- Every enabled step preserves the invariant. -/
theorem inv_step (s s' : MState) (e : Ev) (hInv : Inv s)
    (h : step s e = some s') : Inv s' := by
  cases e with
  | enter k =>
      simp only [step] at h
      rw [← Option.some.inj h]
      exact inv_enter s k hInv
  | start i =>
      simp only [step] at h
      split at h
      case h_2 => cases h
      case h_1 c heq =>
        split at h
        · rename_i hcond
          rw [← Option.some.inj h]
          have hparts : c.phase = Phase.waiting ∧ prevDone s c.prev = true := by
            simpa using hcond
          exact inv_start s i c hInv heq hparts.1 hparts.2
        · cases h
  | finish i ok =>
      simp only [step] at h
      split at h
      case h_2 => cases h
      case h_1 c heq =>
        split at h
        · rename_i hcond
          rw [← Option.some.inj h]
          exact inv_finish s i c ok hInv heq (by simpa using hcond)
        · cases h

theorem foldl_bind_none (tr : List Ev) :
    tr.foldl (fun acc e => acc.bind (fun st => step st e)) none = none := by
  induction tr with
  | nil => rfl
  | cons e tr ih => simpa using ih

/-- The invariant holds in every state reachable from an invariant state. -/
theorem inv_reachFrom (tr : List Ev) (s s' : MState) (hInv : Inv s)
    (h : reachFrom s tr = some s') : Inv s' := by
  induction tr generalizing s with
  | nil =>
      simp only [reachFrom, List.foldl_nil] at h
      rw [← Option.some.inj h]
      exact hInv
  | cons e tr ih =>
      simp only [reachFrom, List.foldl_cons] at h
      replace h : tr.foldl (fun acc e => acc.bind (fun st => step st e))
          (step s e) = some s' := h
      cases hstep : step s e with
      | none =>
          rw [hstep] at h
          rw [foldl_bind_none] at h
          cases h
      | some s1 =>
          rw [hstep] at h
          exact ih s1 (inv_step s s1 e hInv hstep) h

/-- The invariant holds in every reachable state of a `KeyedMutex`. -/
theorem inv_reach (tr : List Ev) (s : MState) (h : reach tr = some s) :
    Inv s :=
  inv_reachFrom tr initState s inv_init h

theorem locks_empty_of_all_done (s : MState) (hInv : Inv s)
    (hall : ∀ (i : Nat) (c : Call), s.calls[i]? = some c →
      c.phase = Phase.done) : s.locks = [] := by
  cases hl : s.locks with
  | nil => rfl
  | cons p t =>
      obtain ⟨k, v⟩ := p
      have hlk : lookupL s.locks k = some v := by
        rw [hl]
        simp [lookupL]
      obtain ⟨c, hc, _, hcph, _⟩ := hInv.locksLast k v hlk
      exact absurd (hall v c hc) hcph

theorem lookupL_isSome_iff_memKey (l : List (String × Nat)) (k : String) :
    (lookupL l k).isSome = true ↔ k ∈ l.map Prod.fst := by
  induction l with
  | nil => simp [lookupL]
  | cons hd t ih =>
    obtain ⟨k0, v0⟩ := hd
    by_cases h0 : k0 = k
    · simp [lookupL, h0]
    · simp only [lookupL, if_neg h0, List.map_cons, List.mem_cons]
      rw [ih]
      constructor
      · exact Or.inr
      · rintro (h | h)
        · exact absurd h.symm h0
        · exact h

/-- The distinct keys that currently have an in-flight or queued
(not-yet-`done`) `run` call. -/
def outstandingKeys (s : MState) : List String :=
  ((s.calls.filter (fun c => !(c.phase == Phase.done))).map Call.key).dedup

theorem mem_outstandingKeys (s : MState) (k : String) :
    k ∈ outstandingKeys s ↔
      ∃ (i : Nat) (c : Call), s.calls[i]? = some c ∧ c.key = k ∧
        c.phase ≠ Phase.done := by
  simp only [outstandingKeys, List.mem_dedup, List.mem_map, List.mem_filter]
  constructor
  · rintro ⟨c, ⟨hmem, hph⟩, hk⟩
    obtain ⟨i, hi⟩ := List.mem_iff_getElem?.mp hmem
    exact ⟨i, c, hi, hk, by simpa using hph⟩
  · rintro ⟨i, c, hi, hk, hph⟩
    refine ⟨c, ⟨List.mem_iff_getElem?.mpr ⟨i, hi⟩, by simpa using hph⟩, hk⟩

/-- C1: for any reachable state of the `KeyedMutex` and any two `run` calls
on the same key, (a) if the later-registered call is past its waiting phase
then the earlier one has fully completed — so for a key's calls
`0..N-1` in registration order, call `j` begins only after every earlier
call `i < j` has finished, which is FIFO execution in exactly the
registration order — and (b) two distinct same-key calls are never both
executing (`running`) at the same instant, i.e. execution intervals never
overlap. -/
theorem keyedMutex_serializes (tr : List Ev) (s : MState)
    (h : reach tr = some s) :
    (∀ (i : Nat) (c : Call) (j : Nat) (d : Call),
        s.calls[i]? = some c → s.calls[j]? = some d → j < i →
        d.key = c.key → c.phase ≠ Phase.waiting → d.phase = Phase.done) ∧
    (∀ (i : Nat) (c : Call) (j : Nat) (d : Call),
        s.calls[i]? = some c → s.calls[j]? = some d → i ≠ j →
        d.key = c.key →
        ¬(c.phase = Phase.running ∧ d.phase = Phase.running)) := by
  have hInv := inv_reach tr s h
  refine ⟨hInv.fifo, ?_⟩
  intro i c j d hi hj hne hkey ⟨hci, hdj⟩
  rcases Nat.lt_trichotomy i j with hij | hij | hij
  · have := hInv.fifo j d i c hj hi hij hkey.symm (by rw [hdj]; simp)
    rw [hci] at this
    cases this
  · exact hne hij
  · have := hInv.fifo i c j d hi hj hij hkey (by rw [hci]; simp)
    rw [hdj] at this
    cases this

def trW : List Ev :=
  [Ev.enter "a", Ev.enter "a", Ev.start 0, Ev.finish 0 false,
   Ev.start 1, Ev.finish 1 true]

def sW : MState :=
  ⟨[], [⟨"a", none, Phase.done, some false⟩,
        ⟨"a", some 0, Phase.done, some true⟩]⟩

theorem keyedMutex_serializes_witness :
    (⟨"a", none, Phase.done, some false⟩ : Call).phase = Phase.done :=
  (keyedMutex_serializes trW sW (by decide)).1
    1 ⟨"a", some 0, Phase.done, some true⟩
    0 ⟨"a", none, Phase.done, some false⟩
    (by decide) (by decide) (by decide) (by decide) (by decide)

/-- C4: in any reachable state, (a) when a call's `fn` settles with outcome
`ok`, that same outcome — rejection included — is what the call records and
delivers to `run`'s caller (the `finally` block does not replace the
result); (b) after a call has completed with a failure, the immediately
following queued call on the same key is enabled to start (the rejected
`nextLock` promise was still resolved, so the queue is not blocked); and
(c) once every call has completed, the lock map is empty — no failure
leaves a key locked. -/
theorem keyedMutex_failure_isolation (tr : List Ev) (s : MState)
    (h : reach tr = some s) :
    (∀ (i : Nat) (ok : Bool) (s' : MState),
        step s (Ev.finish i ok) = some s' →
        ∃ c : Call, s.calls[i]? = some c ∧
          s'.calls[i]? = some { c with phase := Phase.done,
                                       result := some ok }) ∧
    (∀ (i : Nat) (c : Call) (j : Nat) (d : Call),
        s.calls[i]? = some c → c.phase = Phase.done → c.result = some false →
        s.calls[j]? = some d → d.prev = some i → d.phase = Phase.waiting →
        (step s (Ev.start j)).isSome = true) ∧
    ((∀ (i : Nat) (c : Call), s.calls[i]? = some c → c.phase = Phase.done) →
        s.locks = []) := by
  have hInv := inv_reach tr s h
  refine ⟨?_, ?_, locks_empty_of_all_done s hInv⟩
  · intro i ok s' hstep
    simp only [step] at hstep
    split at hstep
    case h_2 => cases hstep
    case h_1 c heq =>
      split at hstep
      · refine ⟨c, heq, ?_⟩
        rw [← Option.some.inj hstep]
        exact get?_set_self _ _ _ (lt_of_get?_some heq)
      · cases hstep
  · intro i c j d hi hcd hcr hj hdprev hdw
    simp [step, hj, hdw, hdprev, prevDone, hi, hcd]

def tr4 : List Ev :=
  [Ev.enter "a", Ev.enter "a", Ev.start 0, Ev.finish 0 false]

def s4 : MState :=
  ⟨[("a", 1)], [⟨"a", none, Phase.done, some false⟩,
                ⟨"a", some 0, Phase.waiting, none⟩]⟩

theorem keyedMutex_failure_isolation_witness :
    (step s4 (Ev.start 1)).isSome = true :=
  (keyedMutex_failure_isolation tr4 s4 (by decide)).2.1
    0 ⟨"a", none, Phase.done, some false⟩
    1 ⟨"a", some 0, Phase.waiting, none⟩
    (by decide) (by decide) (by decide) (by decide) (by decide) (by decide)

/-- C8: in any reachable state, the `locks` map entry for a key exists
exactly while some `run` call for that key is still in flight or queued
(so once the last outstanding call for `k` completes — which deletes the
entry only on an identity match with that call's own slot — `isLocked k`
is `false`), and `getActiveLocksCount` equals the number of distinct keys
with an outstanding call. -/
theorem keyedMutex_lock_tracking (tr : List Ev) (s : MState)
    (h : reach tr = some s) :
    (∀ k : String, isLocked s k = true ↔
        ∃ (i : Nat) (c : Call), s.calls[i]? = some c ∧ c.key = k ∧
          c.phase ≠ Phase.done) ∧
    getActiveLocksCount s = (outstandingKeys s).length := by
  have hInv := inv_reach tr s h
  have hiff : ∀ k : String, isLocked s k = true ↔
      ∃ (i : Nat) (c : Call), s.calls[i]? = some c ∧ c.key = k ∧
        c.phase ≠ Phase.done := by
    intro k
    constructor
    · intro hk
      unfold isLocked at hk
      cases hlk : lookupL s.locks k with
      | none =>
          rw [hlk] at hk
          cases hk
      | some i =>
          obtain ⟨c, hc, hck, hph, _⟩ := hInv.locksLast k i hlk
          exact ⟨i, c, hc, hck, hph⟩
    · rintro ⟨i, c, hc, hck, hph⟩
      unfold isLocked
      cases hlk : lookupL s.locks k with
      | none => exact absurd (hInv.locksNone k hlk i c hc hck) hph
      | some v => rfl
  refine ⟨hiff, ?_⟩
  have hmemiff : ∀ k, k ∈ s.locks.map Prod.fst ↔ k ∈ outstandingKeys s := by
    intro k
    rw [← lookupL_isSome_iff_memKey, mem_outstandingKeys]
    exact hiff k
  have h1 : (s.locks.map Prod.fst).toFinset = (outstandingKeys s).toFinset := by
    apply Finset.ext
    intro a
    simp only [List.mem_toFinset]
    exact hmemiff a
  have h2 := List.toFinset_card_of_nodup hInv.keysNodup
  have h3 := List.toFinset_card_of_nodup
    (List.nodup_dedup ((s.calls.filter (fun c => !(c.phase == Phase.done))).map
      Call.key))
  have hlen : (s.locks.map Prod.fst).length = s.locks.length := by simp
  unfold getActiveLocksCount
  rw [← hlen, ← h2, h1]
  exact h3

def tr8 : List Ev := [Ev.enter "b", Ev.start 0]

def s8 : MState := ⟨[("b", 0)], [⟨"b", none, Phase.running, none⟩]⟩

theorem keyedMutex_lock_tracking_witness :
    isLocked s8 "b" = true ∧ getActiveLocksCount s8 = 1 :=
  ⟨((keyedMutex_lock_tracking tr8 s8 (by decide)).1 "b").mpr
      ⟨0, ⟨"b", none, Phase.running, none⟩, by decide, rfl, by decide⟩,
   by rw [(keyedMutex_lock_tracking tr8 s8 (by decide)).2]; decide⟩

/-! ## Versioned-record update protocols

The store is embedded as a list of records; `findFirst`/`findUnique`
become `List.find?` (first match), `update where {id}` becomes a map that
patches the records whose `id` matches, and a `$transaction` body — which
the claims only exercise sequentially, each handler call being one atomic
transaction (or one exclusive mutex slot) — becomes one pure function from
the store to the new store.  A client-supplied `body.version` is an
arbitrary JSON number, embedded as `Option ℚ` (`none` for
`undefined`/`null`); persisted versions are `Nat`. -/

inductive UpdErr
  | VERSION_REQUIRED
  | NOT_FOUND
  | VERSION_CONFLICT
deriving DecidableEq, Repr

/-- Status codes from the `catch` blocks of the strict handlers
(`src/routes/events.ts`, users routes): `VERSION_REQUIRED` → 400,
not-found → 404, `VERSION_CONFLICT` → 409. -/
def strictErrStatus : UpdErr → Nat
  | .VERSION_REQUIRED => 400
  | .NOT_FOUND => 404
  | .VERSION_CONFLICT => 409

inductive EventType
  | DEADLINE
  | RELEASE
  | ASSESSMENT
  | HIGHLIGHT
deriving DecidableEq, Repr

/-- `mapEventType` in `src/routes/events.ts`: mapping lookup with
`?? 'HIGHLIGHT'` as default. -/
def mapEventType (t : String) : EventType :=
  if t = "deadline" then .DEADLINE
  else if t = "release" then .RELEASE
  else if t = "assessment" then .ASSESSMENT
  else if t = "highlight" then .HIGHLIGHT
  else .HIGHLIGHT

/-- An `Event` row.  Dates are embedded as their (zod-validated) source
strings — `new Date(s)` is injective on them, so nothing is lost. -/
structure EventRec where
  id : String
  title : String
  course : String
  type : EventType
  description : Option String
  photoUrl : Option String
  linkAttachments : Option (List (String × String))
  start : String
  end_ : Option String
  version : Nat
deriving DecidableEq, Repr

/-- The result of `eventSchema.partial().parse(body)`: the outer `Option`
is key presence (`'field' in validatedData`), the inner one distinguishes a
defined value from an explicitly `undefined` one. -/
structure EventPatch where
  title : Option (Option String)
  course : Option (Option String)
  type : Option (Option String)
  description : Option (Option String)
  photoUrl : Option (Option String)
  linkAttachments : Option (Option (List (String × String)))
  start : Option (Option String)
  end_ : Option (Option String)
deriving DecidableEq, Repr

/-- The update-data object of the events `PUT` handler
(`src/routes/events.ts` lines 126–139), including `version: {increment: 1}`:
`title`/`course`/`type`/`start` change only when present and defined;
`description`/`photoUrl`/`linkAttachments`/`end` change whenever the key is
present, an undefined value collapsing to `null` (`?? null` /
`Prisma.JsonNull`); `end` maps a present value through the truthiness check
`validatedData.end ? new Date(validatedData.end) : null`, and a zod-valid
date string is non-empty, hence truthy. -/
def applyEventPatch (p : EventPatch) (r : EventRec) : EventRec :=
  { r with
    title := match p.title with | some (some v) => v | _ => r.title,
    course := match p.course with | some (some v) => v | _ => r.course,
    type := match p.type with | some (some v) => mapEventType v | _ => r.type,
    description := match p.description with
      | some x => x
      | none => r.description,
    photoUrl := match p.photoUrl with | some x => x | none => r.photoUrl,
    linkAttachments := match p.linkAttachments with
      | some x => x
      | none => r.linkAttachments,
    start := match p.start with | some (some v) => v | _ => r.start,
    end_ := match p.end_ with | some x => x | none => r.end_,
    version := r.version + 1 }

/-- The `PUT /events/:id` handler core (`src/routes/events.ts` lines
93–140): presence check on `body.version`, then the transaction —
`findFirst {id, version}`; on hit, `update where {id}` with the patch and
version increment; on miss, `findUnique {id}` to split `EVENT_NOT_FOUND`
from `VERSION_CONFLICT`.  Returns the updated row and the new store. -/
def eventPut (db : List EventRec) (id : String) (version : Option ℚ)
    (p : EventPatch) : Except UpdErr (EventRec × List EventRec) :=
  match version with
  | none => .error .VERSION_REQUIRED
  | some v =>
      match db.find? (fun r => r.id == id && ((r.version : ℚ) == v)) with
      | some existing =>
          .ok (applyEventPatch p existing,
               db.map (fun r => if r.id == id then applyEventPatch p r else r))
      | none =>
          match db.find? (fun r => r.id == id) with
          | none => .error .NOT_FOUND
          | some _ => .error .VERSION_CONFLICT

inductive Role
  | USER
  | ASSISTANT
  | ADMIN
deriving DecidableEq, Repr

structure UserRec where
  id : String
  clerkId : String
  email : String
  role : Role
  version : Nat
deriving DecidableEq, Repr

/-- The update of the users role route: set `role`, `version: {increment: 1}`. -/
def applyUserRole (role : Role) (r : UserRec) : UserRec :=
  { r with role := role, version := r.version + 1 }

/-- The `PUT /update/:id/role` handler core (users route, lines 35–76):
presence check on `body.version`, then the same strict check-and-update
transaction as the events route, the patch being the validated `role`. -/
def userRolePut (db : List UserRec) (id : String) (version : Option ℚ)
    (role : Role) : Except UpdErr (UserRec × List UserRec) :=
  match version with
  | none => .error .VERSION_REQUIRED
  | some v =>
      match db.find? (fun r => r.id == id && ((r.version : ℚ) == v)) with
      | some existing =>
          .ok (applyUserRole role existing,
               db.map (fun r => if r.id == id then applyUserRole role r else r))
      | none =>
          match db.find? (fun r => r.id == id) with
          | none => .error .NOT_FOUND
          | some _ => .error .VERSION_CONFLICT

inductive TaskPriority
  | LOW
  | MEDIUM
  | HIGH
deriving DecidableEq, Repr

inductive TaskStatus
  | TO_DO
  | IN_PROGRESS
  | DONE
deriving DecidableEq, Repr

/-- `mapPriority` in the tasks route: `value ? mapping[value] ?? 'MEDIUM' :
'MEDIUM'` — a falsy value (absent, undefined, or the empty string) and an
unknown string both fall back to `MEDIUM`. -/
def mapPriority (v : Option String) : TaskPriority :=
  match v with
  | some s =>
      if s = "low" then .LOW
      else if s = "medium" then .MEDIUM
      else if s = "high" then .HIGH
      else .MEDIUM
  | none => .MEDIUM

/-- `mapStatus` in the tasks route, falling back to `TO_DO`. -/
def mapStatus (v : Option String) : TaskStatus :=
  match v with
  | some s =>
      if s = "To Do" then .TO_DO
      else if s = "In Progress" then .IN_PROGRESS
      else if s = "Done" then .DONE
      else .TO_DO
  | none => .TO_DO

/-- A `Task` row (dates again embedded as their source strings). -/
structure TaskRec where
  id : String
  title : String
  description : String
  priority : TaskPriority
  status : TaskStatus
  assignee : Option String
  tags : List String
  dueDate : Option String
  assistantId : Option String
  version : Nat
deriving DecidableEq, Repr

/-- The result of `taskSchema.partial().parse(body)` (same double-`Option`
convention as `EventPatch`). -/
structure TaskPatch where
  title : Option (Option String)
  description : Option (Option String)
  priority : Option (Option String)
  status : Option (Option String)
  dueDate : Option (Option String)
  assignee : Option (Option String)
  assistantId : Option (Option String)
  tags : Option (Option (List String))
deriving DecidableEq, Repr

/-- The JS truthiness test `if (validatedData.assistantId)`: the id must be
present, defined and non-empty for the assistant branch to run. -/
def truthyAssistantId (p : TaskPatch) : Option String :=
  match p.assistantId with
  | some (some s) => if s = "" then none else some s
  | _ => none

/-- `prisma.assistant.findUnique({where: {id}})`, over a store of
`(id, name)` rows. -/
def lookupAssistant (asst : List (String × String)) (aid : String) :
    Option String :=
  (asst.find? (fun a => a.fst == aid)).map Prod.snd

/-- The update-data object of the tasks `PUT` handler (lines 152–177 of the
tasks route) applied to a row, `version: {increment: 1}` included.  The
base spreads touch `title` only when present and defined, and
`description`/`priority`/`status`/`assignee`/`tags`/`dueDate` whenever the
key is present (`?? ''`, `mapPriority`/`mapStatus` of a possibly undefined
value, `?? null`, `?? []`, and the truthiness test
`validatedData.dueDate ? new Date(...) : null` respectively); when
`validatedData.assistantId` is truthy and resolves to assistant `(aid, nm)`,
the later spread overrides `assignee` with `nm` and connects `aid`. -/
def applyTaskPatch (p : TaskPatch) (asst : Option (String × String))
    (r : TaskRec) : TaskRec :=
  { r with
    title := match p.title with | some (some v) => v | _ => r.title,
    description := match p.description with
      | some x => x.getD ""
      | none => r.description,
    priority := match p.priority with
      | some x => mapPriority x
      | none => r.priority,
    status := match p.status with | some x => mapStatus x | none => r.status,
    assignee := match asst with
      | some a => some a.snd
      | none => match p.assignee with | some x => x | none => r.assignee,
    tags := match p.tags with | some x => x.getD [] | none => r.tags,
    dueDate := match p.dueDate with
      | some x =>
          match x with
          | some s => if s = "" then none else some s
          | none => none
      | none => r.dueDate,
    assistantId := match asst with
      | some a => some a.fst
      | none => r.assistantId,
    version := r.version + 1 }

inductive TaskErr
  | VERSION_REQUIRED
  | ASSISTANT_NOT_FOUND
  | TASK_NOT_FOUND
deriving DecidableEq, Repr

/-- Status codes of the tasks `PUT` handler: `VERSION_REQUIRED` → 400,
`'Assistant not found'` → 400, `TASK_NOT_FOUND` → 404; a version conflict
does not exist on this path. -/
def taskErrStatus : TaskErr → Nat
  | .VERSION_REQUIRED => 400
  | .ASSISTANT_NOT_FOUND => 400
  | .TASK_NOT_FOUND => 404

/-- The `PUT /tasks/:id` handler core (tasks route, lines 138–205):
presence check on `body.version`; resolution of a truthy `assistantId`
(`'Assistant not found'` → 400 when it does not resolve); then, inside
`taskMutex.run(id, …)`: `findUnique {id}` (`TASK_NOT_FOUND` on miss), a
log-only staleness check (`currentTask.version > userVersion` triggers
nothing but a console line), and the unconditional update with version
increment — the claimed version is never compared for rejection. -/
def taskPut (asst : List (String × String)) (db : List TaskRec) (id : String)
    (version : Option ℚ) (p : TaskPatch) :
    Except TaskErr (TaskRec × List TaskRec) :=
  match version with
  | none => .error .VERSION_REQUIRED
  | some _ =>
      match truthyAssistantId p with
      | some aid =>
          match lookupAssistant asst aid with
          | none => .error .ASSISTANT_NOT_FOUND
          | some nm =>
              match db.find? (fun r => r.id == id) with
              | none => .error .TASK_NOT_FOUND
              | some current =>
                  .ok (applyTaskPatch p (some (aid, nm)) current,
                       db.map (fun r => if r.id == id then
                         applyTaskPatch p (some (aid, nm)) r else r))
      | none =>
          match db.find? (fun r => r.id == id) with
          | none => .error .TASK_NOT_FOUND
          | some current =>
              .ok (applyTaskPatch p none current,
                   db.map (fun r => if r.id == id then
                     applyTaskPatch p none r else r))

/-- Two sequential calls of the tasks handler on the same id — the shape
`KeyedMutex.run` forces on two concurrent requests for one task. -/
def taskPutSeq (asst : List (String × String)) (db : List TaskRec)
    (id : String) (v1 : Option ℚ) (p1 : TaskPatch) (v2 : Option ℚ)
    (p2 : TaskPatch) : Except TaskErr (TaskRec × List TaskRec) :=
  match taskPut asst db id v1 p1 with
  | .ok res => taskPut asst res.2 id v2 p2
  | .error e => .error e

section FindHelpers

variable {α : Type}

theorem find?_and_of_find? (p q : α → Bool) (l : List α) (a : α)
    (hp : l.find? p = some a) (hq : q a = true) :
    l.find? (fun x => p x && q x) = some a := by
  induction l with
  | nil => cases hp
  | cons x t ih =>
    by_cases hx : p x = true
    · rw [List.find?_cons_of_pos _ hx] at hp
      have hha := Option.some.inj hp
      subst hha
      exact List.find?_cons_of_pos _ (by simp [hx, hq])
    · rw [List.find?_cons_of_neg _ hx] at hp
      rw [List.find?_cons_of_neg _ (by simp [hx])]
      exact ih hp

theorem find?_and_none (p q : α → Bool) (l : List α)
    (h : l.find? p = none) : l.find? (fun x => p x && q x) = none := by
  rw [List.find?_eq_none] at h ⊢
  intro a ha
  simp only [Bool.and_eq_true, not_and]
  intro hp
  exact absurd hp (h a ha)

theorem find?_map_patch (getId : α → String) (upd : α → α)
    (hid : ∀ r, getId (upd r) = getId r) (db : List α) (id : String)
    (cur : α) (hcur : db.find? (fun r => getId r == id) = some cur) :
    (db.map (fun r => if getId r == id then upd r else r)).find?
      (fun r => getId r == id) = some (upd cur) := by
  induction db with
  | nil => cases hcur
  | cons x t ih =>
    by_cases hx : ((fun r => getId r == id) x) = true
    · rw [@List.find?_cons_of_pos α (fun r => getId r == id) x t hx] at hcur
      have hhc := Option.some.inj hcur
      subst hhc
      simp only [List.map_cons, if_pos hx]
      exact List.find?_cons_of_pos _
        (show (getId (upd x) == id) = true by rw [hid]; exact hx)
    · rw [@List.find?_cons_of_neg α (fun r => getId r == id) x t hx] at hcur
      simp only [List.map_cons, if_neg hx]
      rw [@List.find?_cons_of_neg α (fun r => getId r == id) x _ hx]
      exact ih hcur

theorem ids_map_patch (getId : α → String) (upd : α → α)
    (hid : ∀ r, getId (upd r) = getId r) (db : List α) (id : String) :
    (db.map (fun r => if getId r == id then upd r else r)).map getId =
      db.map getId := by
  induction db with
  | nil => rfl
  | cons h t ih =>
    simp only [List.map_cons, ih, List.cons.injEq, and_true]
    by_cases hh : (getId h == id) = true
    · rw [if_pos hh, hid]
    · rw [if_neg hh]

theorem mem_map_patch (getId : α → String) (upd : α → α) (db : List α)
    (id : String) (r' : α)
    (h : r' ∈ db.map (fun r => if getId r == id then upd r else r)) :
    ∃ r ∈ db, r' = if getId r == id then upd r else r := by
  obtain ⟨r, hr, heq⟩ := List.mem_map.mp h
  exact ⟨r, hr, heq.symm⟩

theorem map_patch_patch (getId : α → String) (upd1 upd2 : α → α)
    (hid1 : ∀ r, getId (upd1 r) = getId r) (db : List α) (id : String) :
    (db.map (fun r => if getId r == id then upd1 r else r)).map
      (fun r => if getId r == id then upd2 r else r) =
      db.map (fun r => if getId r == id then upd2 (upd1 r) else r) := by
  rw [List.map_map]
  apply List.map_congr_left
  intro r _
  by_cases h : (getId r == id) = true
  · have hcond : (getId (upd1 r) == id) = true := by
      rw [hid1]
      exact h
    simp [Function.comp, h, hcond]
  · simp [Function.comp, h]

end FindHelpers

/-! ### Branch characterizations of the three update handlers -/

theorem eventPut_found (db : List EventRec) (id : String) (v : ℚ)
    (p : EventPatch) (r0 : EventRec)
    (hfind : db.find? (fun r => r.id == id) = some r0)
    (hver : (r0.version : ℚ) = v) :
    eventPut db id (some v) p =
      .ok (applyEventPatch p r0,
           db.map (fun r => if r.id == id then applyEventPatch p r else r)) := by
  have h1 : db.find? (fun r => r.id == id && ((r.version : ℚ) == v)) =
      some r0 :=
    find?_and_of_find? _ _ db r0 hfind (beq_iff_eq.mpr hver)
  simp [eventPut, h1]

theorem eventPut_absent (db : List EventRec) (id : String) (v : ℚ)
    (p : EventPatch) (hfind : db.find? (fun r => r.id == id) = none) :
    eventPut db id (some v) p = .error UpdErr.NOT_FOUND := by
  have h1 := find?_and_none (fun r : EventRec => r.id == id)
    (fun r => ((r.version : ℚ) == v)) db hfind
  simp [eventPut, h1, hfind]

theorem eventPut_conflict (db : List EventRec) (id : String) (v : ℚ)
    (p : EventPatch) (r0 : EventRec) (hnd : (db.map EventRec.id).Nodup)
    (hfind : db.find? (fun r => r.id == id) = some r0)
    (hver : (r0.version : ℚ) ≠ v) :
    eventPut db id (some v) p = .error UpdErr.VERSION_CONFLICT := by
  have hr0mem := List.mem_of_find?_eq_some hfind
  have hr0id : r0.id = id := by simpa using List.find?_some hfind
  have h1 : db.find? (fun r => r.id == id && ((r.version : ℚ) == v)) =
      none := by
    rw [List.find?_eq_none]
    intro a ha
    simp only [Bool.and_eq_true, beq_iff_eq, not_and]
    intro haid hav
    have har : a = r0 :=
      List.inj_on_of_nodup_map hnd ha hr0mem (by rw [haid, hr0id])
    rw [har] at hav
    exact hver hav
  simp [eventPut, h1, hfind]

theorem userRolePut_found (db : List UserRec) (id : String) (v : ℚ)
    (role : Role) (r0 : UserRec)
    (hfind : db.find? (fun r => r.id == id) = some r0)
    (hver : (r0.version : ℚ) = v) :
    userRolePut db id (some v) role =
      .ok (applyUserRole role r0,
           db.map (fun r => if r.id == id then applyUserRole role r else r)) := by
  have h1 : db.find? (fun r => r.id == id && ((r.version : ℚ) == v)) =
      some r0 :=
    find?_and_of_find? _ _ db r0 hfind (beq_iff_eq.mpr hver)
  simp [userRolePut, h1]

theorem userRolePut_absent (db : List UserRec) (id : String) (v : ℚ)
    (role : Role) (hfind : db.find? (fun r => r.id == id) = none) :
    userRolePut db id (some v) role = .error UpdErr.NOT_FOUND := by
  have h1 := find?_and_none (fun r : UserRec => r.id == id)
    (fun r => ((r.version : ℚ) == v)) db hfind
  simp [userRolePut, h1, hfind]

theorem userRolePut_conflict (db : List UserRec) (id : String) (v : ℚ)
    (role : Role) (r0 : UserRec) (hnd : (db.map UserRec.id).Nodup)
    (hfind : db.find? (fun r => r.id == id) = some r0)
    (hver : (r0.version : ℚ) ≠ v) :
    userRolePut db id (some v) role = .error UpdErr.VERSION_CONFLICT := by
  have hr0mem := List.mem_of_find?_eq_some hfind
  have hr0id : r0.id = id := by simpa using List.find?_some hfind
  have h1 : db.find? (fun r => r.id == id && ((r.version : ℚ) == v)) =
      none := by
    rw [List.find?_eq_none]
    intro a ha
    simp only [Bool.and_eq_true, beq_iff_eq, not_and]
    intro haid hav
    have har : a = r0 :=
      List.inj_on_of_nodup_map hnd ha hr0mem (by rw [haid, hr0id])
    rw [har] at hav
    exact hver hav
  simp [userRolePut, h1, hfind]

/-- The assistant pair `(id, name)` the tasks handler resolves for a patch:
`some` exactly when `validatedData.assistantId` is truthy and found. -/
def taskAsst (asst : List (String × String)) (p : TaskPatch) :
    Option (String × String) :=
  match truthyAssistantId p with
  | some aid =>
      match lookupAssistant asst aid with
      | some nm => some (aid, nm)
      | none => none
  | none => none

/-- A truthy `assistantId` in the patch, if any, resolves against the
assistant store (otherwise the handler answers 400 before the mutex). -/
def taskResolves (asst : List (String × String)) (p : TaskPatch) : Bool :=
  match truthyAssistantId p with
  | some aid => (lookupAssistant asst aid).isSome
  | none => true

theorem taskPut_found (asst : List (String × String)) (db : List TaskRec)
    (id : String) (v : ℚ) (p : TaskPatch) (cur : TaskRec)
    (hres : taskResolves asst p = true)
    (hfind : db.find? (fun r => r.id == id) = some cur) :
    taskPut asst db id (some v) p =
      .ok (applyTaskPatch p (taskAsst asst p) cur,
           db.map (fun r => if r.id == id then
             applyTaskPatch p (taskAsst asst p) r else r)) := by
  unfold taskResolves at hres
  cases htr : truthyAssistantId p with
  | none => simp [taskPut, taskAsst, htr, hfind]
  | some aid =>
      have hres' : (lookupAssistant asst aid).isSome = true := by
        rw [htr] at hres
        exact hres
      cases hlook : lookupAssistant asst aid with
      | none =>
          rw [hlook] at hres'
          cases hres'
      | some nm => simp [taskPut, taskAsst, htr, hlook, hfind]

theorem taskPut_notfound (asst : List (String × String)) (db : List TaskRec)
    (id : String) (v : ℚ) (p : TaskPatch)
    (hres : taskResolves asst p = true)
    (hfind : db.find? (fun r => r.id == id) = none) :
    taskPut asst db id (some v) p = .error TaskErr.TASK_NOT_FOUND := by
  unfold taskResolves at hres
  cases htr : truthyAssistantId p with
  | none => simp [taskPut, htr, hfind]
  | some aid =>
      have hres' : (lookupAssistant asst aid).isSome = true := by
        rw [htr] at hres
        exact hres
      cases hlook : lookupAssistant asst aid with
      | none =>
          rw [hlook] at hres'
          cases hres'
      | some nm => simp [taskPut, htr, hlook, hfind]

/-- C2: the strict OCC update path (events route; users role route),
executed as one atomic transaction: a record at exactly the claimed version
gets the patch applied and is returned; a missing id yields `NOT_FOUND`; an
existing record at a different version yields `VERSION_CONFLICT` (decided
by the second lookup by id alone); and of two updates claiming the same
version of one record, the first succeeds and the second, validated against
the store the first produced, receives `VERSION_CONFLICT`. -/
theorem strict_occ_protocol (id : String) (v : ℚ) :
    (∀ (db : List EventRec) (p : EventPatch) (r0 : EventRec),
        db.find? (fun r => r.id == id) = some r0 → (r0.version : ℚ) = v →
        eventPut db id (some v) p =
          .ok (applyEventPatch p r0,
               db.map (fun r => if r.id == id then applyEventPatch p r
                 else r))) ∧
    (∀ (db : List EventRec) (p : EventPatch),
        db.find? (fun r => r.id == id) = none →
        eventPut db id (some v) p = .error UpdErr.NOT_FOUND) ∧
    (∀ (db : List EventRec) (p : EventPatch) (r0 : EventRec),
        (db.map EventRec.id).Nodup →
        db.find? (fun r => r.id == id) = some r0 → (r0.version : ℚ) ≠ v →
        eventPut db id (some v) p = .error UpdErr.VERSION_CONFLICT) ∧
    (∀ (db : List EventRec) (p1 p2 : EventPatch) (r0 : EventRec),
        (db.map EventRec.id).Nodup →
        db.find? (fun r => r.id == id) = some r0 → (r0.version : ℚ) = v →
        ∃ res : EventRec × List EventRec,
          eventPut db id (some v) p1 = .ok res ∧
          eventPut res.2 id (some v) p2 = .error UpdErr.VERSION_CONFLICT) ∧
    (∀ (db : List UserRec) (role : Role) (r0 : UserRec),
        db.find? (fun r => r.id == id) = some r0 → (r0.version : ℚ) = v →
        userRolePut db id (some v) role =
          .ok (applyUserRole role r0,
               db.map (fun r => if r.id == id then applyUserRole role r
                 else r))) ∧
    (∀ (db : List UserRec) (role : Role),
        db.find? (fun r => r.id == id) = none →
        userRolePut db id (some v) role = .error UpdErr.NOT_FOUND) ∧
    (∀ (db : List UserRec) (role : Role) (r0 : UserRec),
        (db.map UserRec.id).Nodup →
        db.find? (fun r => r.id == id) = some r0 → (r0.version : ℚ) ≠ v →
        userRolePut db id (some v) role = .error UpdErr.VERSION_CONFLICT) ∧
    (∀ (db : List UserRec) (role1 role2 : Role) (r0 : UserRec),
        (db.map UserRec.id).Nodup →
        db.find? (fun r => r.id == id) = some r0 → (r0.version : ℚ) = v →
        ∃ res : UserRec × List UserRec,
          userRolePut db id (some v) role1 = .ok res ∧
          userRolePut res.2 id (some v) role2 =
            .error UpdErr.VERSION_CONFLICT) := by
  refine ⟨fun db p r0 h1 h2 => eventPut_found db id v p r0 h1 h2,
          fun db p h1 => eventPut_absent db id v p h1,
          fun db p r0 hnd h1 h2 => eventPut_conflict db id v p r0 hnd h1 h2,
          ?_,
          fun db role r0 h1 h2 => userRolePut_found db id v role r0 h1 h2,
          fun db role h1 => userRolePut_absent db id v role h1,
          fun db role r0 hnd h1 h2 =>
            userRolePut_conflict db id v role r0 hnd h1 h2,
          ?_⟩
  · intro db p1 p2 r0 hnd hfind hver
    refine ⟨_, eventPut_found db id v p1 r0 hfind hver, ?_⟩
    have hid : ∀ r : EventRec, (applyEventPatch p1 r).id = r.id := fun _ => rfl
    have hfind' := find?_map_patch EventRec.id (applyEventPatch p1) hid db id
      r0 hfind
    have hnd' : ((db.map (fun r => if r.id == id then applyEventPatch p1 r
        else r)).map EventRec.id).Nodup := by
      rw [ids_map_patch EventRec.id (applyEventPatch p1) hid db id]
      exact hnd
    refine eventPut_conflict _ id v p2 _ hnd' hfind' ?_
    show ((r0.version + 1 : Nat) : ℚ) ≠ v
    rw [← hver]
    intro h
    have := Nat.cast_inj.mp h
    omega
  · intro db role1 role2 r0 hnd hfind hver
    refine ⟨_, userRolePut_found db id v role1 r0 hfind hver, ?_⟩
    have hid : ∀ r : UserRec, (applyUserRole role1 r).id = r.id := fun _ => rfl
    have hfind' := find?_map_patch UserRec.id (applyUserRole role1) hid db id
      r0 hfind
    have hnd' : ((db.map (fun r => if r.id == id then applyUserRole role1 r
        else r)).map UserRec.id).Nodup := by
      rw [ids_map_patch UserRec.id (applyUserRole role1) hid db id]
      exact hnd
    refine userRolePut_conflict _ id v role2 _ hnd' hfind' ?_
    show ((r0.version + 1 : Nat) : ℚ) ≠ v
    rw [← hver]
    intro h
    have := Nat.cast_inj.mp h
    omega

instance exceptDecEq {e a : Type} [DecidableEq e] [DecidableEq a] :
    DecidableEq (Except e a) := fun x y =>
  match x, y with
  | .ok u, .ok w => decidable_of_iff (u = w) (by simp)
  | .error u, .error w => decidable_of_iff (u = w) (by simp)
  | .ok _, .error _ => isFalse (by simp)
  | .error _, .ok _ => isFalse (by simp)

def evR1 : EventRec :=
  ⟨"e1", "Title", "IF2211", EventType.DEADLINE, none, none, none,
   "2025-01-01", none, 1⟩

def evDb1 : List EventRec := [evR1]

def evPatch0 : EventPatch := ⟨none, none, none, none, none, none, none, none⟩

theorem strict_occ_protocol_witness :
    ∃ res : EventRec × List EventRec,
      eventPut evDb1 "e1" (some 1) evPatch0 = .ok res ∧
      eventPut res.2 "e1" (some 1) evPatch0 =
        .error UpdErr.VERSION_CONFLICT :=
  (strict_occ_protocol "e1" 1).2.2.2.1 evDb1 evPatch0 evPatch0 evR1
    (by decide) (by decide) (by decide)

def emptyTaskPatch : TaskPatch :=
  ⟨none, none, none, none, none, none, none, none⟩

/-- C3 (refuted on the events route): a stale claimed version against an
existing event is answered with `VERSION_CONFLICT`, mapped to 409 — the
events handler uses the strict transaction and never touches the exported
(and unused) `eventMutex`, while the same stale request on the tasks route
succeeds.  The repository's own `docs/CONCURRENCY_PLAN.md` tables
`events.ts` under "OCC + Queue … auto-merge", so the code contradicts its
documentation. -/
theorem events_stale_conflict :
    (eventPut [⟨"e1", "T", "C", EventType.HIGHLIGHT, none, none, none, "d",
        none, 2⟩] "e1" (some 1) evPatch0 = .error UpdErr.VERSION_CONFLICT ∧
      strictErrStatus UpdErr.VERSION_CONFLICT = 409) ∧
    (∃ res : TaskRec × List TaskRec,
      taskPut [] [⟨"t1", "T", "", TaskPriority.LOW, TaskStatus.TO_DO, none,
        [], none, none, 2⟩] "t1" (some 1) emptyTaskPatch = .ok res) :=
  ⟨by decide, ⟨_, rfl⟩⟩

/-- C7: on every successful update — the strict events and users paths and
the auto-merge tasks path alike — the returned record's version is exactly
the stored version plus 1. -/
theorem occ_version_increment :
    (∀ (db : List EventRec) (id : String) (v : ℚ) (p : EventPatch)
        (r0 : EventRec),
        db.find? (fun r => r.id == id) = some r0 → (r0.version : ℚ) = v →
        ∃ res : EventRec × List EventRec,
          eventPut db id (some v) p = .ok res ∧
          res.1.version = r0.version + 1) ∧
    (∀ (db : List UserRec) (id : String) (v : ℚ) (role : Role)
        (r0 : UserRec),
        db.find? (fun r => r.id == id) = some r0 → (r0.version : ℚ) = v →
        ∃ res : UserRec × List UserRec,
          userRolePut db id (some v) role = .ok res ∧
          res.1.version = r0.version + 1) ∧
    (∀ (asst : List (String × String)) (db : List TaskRec) (id : String)
        (v : ℚ) (p : TaskPatch) (cur : TaskRec),
        taskResolves asst p = true →
        db.find? (fun r => r.id == id) = some cur →
        ∃ res : TaskRec × List TaskRec,
          taskPut asst db id (some v) p = .ok res ∧
          res.1.version = cur.version + 1) := by
  refine ⟨?_, ?_, ?_⟩
  · intro db id v p r0 h1 h2
    exact ⟨_, eventPut_found db id v p r0 h1 h2, rfl⟩
  · intro db id v role r0 h1 h2
    exact ⟨_, userRolePut_found db id v role r0 h1 h2, rfl⟩
  · intro asst db id v p cur h1 h2
    exact ⟨_, taskPut_found asst db id v p cur h1 h2, rfl⟩

theorem occ_version_increment_witness :
    ∃ res : EventRec × List EventRec,
      eventPut evDb1 "e1" (some 1) evPatch0 = .ok res ∧
      res.1.version = evR1.version + 1 :=
  occ_version_increment.1 evDb1 "e1" 1 evPatch0 evR1 (by decide) (by decide)

/-- C9: a missing claimed version (`undefined` or `null`) makes every
versioned update handler fail with `VERSION_REQUIRED`, and the three
failure signals are mapped to three distinct transport codes —
`VERSION_REQUIRED` → 400, not-found → 404, `VERSION_CONFLICT` → 409 (the
latter existing only on the strict paths). -/
theorem failure_signal_mapping :
    (∀ (db : List EventRec) (id : String) (p : EventPatch),
        eventPut db id none p = .error UpdErr.VERSION_REQUIRED) ∧
    (∀ (db : List UserRec) (id : String) (role : Role),
        userRolePut db id none role = .error UpdErr.VERSION_REQUIRED) ∧
    (∀ (asst : List (String × String)) (db : List TaskRec) (id : String)
        (p : TaskPatch),
        taskPut asst db id none p = .error TaskErr.VERSION_REQUIRED) ∧
    strictErrStatus UpdErr.VERSION_REQUIRED = 400 ∧
    strictErrStatus UpdErr.NOT_FOUND = 404 ∧
    strictErrStatus UpdErr.VERSION_CONFLICT = 409 ∧
    taskErrStatus TaskErr.VERSION_REQUIRED = 400 ∧
    taskErrStatus TaskErr.TASK_NOT_FOUND = 404 ∧
    strictErrStatus UpdErr.VERSION_REQUIRED ≠
      strictErrStatus UpdErr.NOT_FOUND ∧
    strictErrStatus UpdErr.VERSION_REQUIRED ≠
      strictErrStatus UpdErr.VERSION_CONFLICT ∧
    strictErrStatus UpdErr.NOT_FOUND ≠
      strictErrStatus UpdErr.VERSION_CONFLICT :=
  ⟨fun _ _ _ => rfl, fun _ _ _ => rfl, fun _ _ _ _ => rfl,
   rfl, rfl, rfl, rfl, rfl, by decide, by decide, by decide⟩

theorem failure_signal_mapping_witness :
    eventPut evDb1 "e1" none evPatch0 = .error UpdErr.VERSION_REQUIRED :=
  failure_signal_mapping.1 evDb1 "e1" evPatch0

/-- C10: the concurrency-token check is presence-only — `VERSION_REQUIRED`
is raised exactly when `body.version` is `undefined`/`null`; any number
(zero, negative, non-integer, or larger than the stored version) passes
the check on all three handlers, and on the auto-merge tasks path such a
claimed version still yields a successful update of an existing record. -/
theorem version_presence_check_only :
    (∀ (db : List EventRec) (id : String) (p : EventPatch),
        eventPut db id none p = .error UpdErr.VERSION_REQUIRED) ∧
    (∀ (db : List UserRec) (id : String) (role : Role),
        userRolePut db id none role = .error UpdErr.VERSION_REQUIRED) ∧
    (∀ (asst : List (String × String)) (db : List TaskRec) (id : String)
        (p : TaskPatch),
        taskPut asst db id none p = .error TaskErr.VERSION_REQUIRED) ∧
    (∀ (v : ℚ) (db : List EventRec) (id : String) (p : EventPatch),
        eventPut db id (some v) p ≠ .error UpdErr.VERSION_REQUIRED) ∧
    (∀ (v : ℚ) (db : List UserRec) (id : String) (role : Role),
        userRolePut db id (some v) role ≠ .error UpdErr.VERSION_REQUIRED) ∧
    (∀ (v : ℚ) (asst : List (String × String)) (db : List TaskRec)
        (id : String) (p : TaskPatch),
        taskPut asst db id (some v) p ≠ .error TaskErr.VERSION_REQUIRED) ∧
    (∀ (v : ℚ) (asst : List (String × String)) (db : List TaskRec)
        (id : String) (p : TaskPatch) (cur : TaskRec),
        taskResolves asst p = true →
        db.find? (fun r => r.id == id) = some cur →
        ∃ res : TaskRec × List TaskRec,
          taskPut asst db id (some v) p = .ok res) := by
  refine ⟨fun _ _ _ => rfl, fun _ _ _ => rfl, fun _ _ _ _ => rfl,
          ?_, ?_, ?_, ?_⟩
  · intro v db id p h
    simp only [eventPut] at h
    cases hf : db.find? (fun r => r.id == id && ((r.version : ℚ) == v)) with
    | some r => simp [hf] at h
    | none =>
        cases hf2 : db.find? (fun r : EventRec => r.id == id) with
        | none => simp [hf, hf2] at h
        | some r => simp [hf, hf2] at h
  · intro v db id role h
    simp only [userRolePut] at h
    cases hf : db.find? (fun r => r.id == id && ((r.version : ℚ) == v)) with
    | some r => simp [hf] at h
    | none =>
        cases hf2 : db.find? (fun r : UserRec => r.id == id) with
        | none => simp [hf, hf2] at h
        | some r => simp [hf, hf2] at h
  · intro v asst db id p h
    simp only [taskPut] at h
    cases ht : truthyAssistantId p with
    | some aid =>
        cases hl : lookupAssistant asst aid with
        | none => simp [ht, hl] at h
        | some nm =>
            cases hf : db.find? (fun r : TaskRec => r.id == id) with
            | none => simp [ht, hl, hf] at h
            | some cur => simp [ht, hl, hf] at h
    | none =>
        cases hf : db.find? (fun r : TaskRec => r.id == id) with
        | none => simp [ht, hf] at h
        | some cur => simp [ht, hf] at h
  · intro v asst db id p cur h1 h2
    exact ⟨_, taskPut_found asst db id v p cur h1 h2⟩

def tkR1 : TaskRec :=
  ⟨"t1", "T", "", TaskPriority.LOW, TaskStatus.TO_DO, none, [], none,
   none, 3⟩

theorem version_presence_check_only_witness :
    ∃ res : TaskRec × List TaskRec,
      taskPut [] [tkR1] "t1" (some (-(1 : ℚ) / 2)) emptyTaskPatch =
        .ok res :=
  version_presence_check_only.2.2.2.2.2.2 (-(1 : ℚ) / 2) [] [tkR1] "t1"
    emptyTaskPatch tkR1 (by decide) (by decide)

/-! ### Field footprints of a task patch -/

/-- The `title` spread fires only for a present, defined value. -/
def touchesTitle (p : TaskPatch) : Bool :=
  match p.title with
  | some (some _) => true
  | _ => false

def touchesDescription (p : TaskPatch) : Bool := p.description.isSome

def touchesPriority (p : TaskPatch) : Bool := p.priority.isSome

def touchesStatus (p : TaskPatch) : Bool := p.status.isSome

def touchesTags (p : TaskPatch) : Bool := p.tags.isSome

def touchesDueDate (p : TaskPatch) : Bool := p.dueDate.isSome

/-- The `assignee` column is written by the `assignee` spread or by the
assistant override. -/
def touchesAssignee (p : TaskPatch) (a : Option (String × String)) : Bool :=
  p.assignee.isSome || a.isSome

def touchesAssistant (a : Option (String × String)) : Bool := a.isSome

theorem touchesTitle_false_elim (p : TaskPatch) (h : touchesTitle p = false) :
    p.title = none ∨ p.title = some none := by
  unfold touchesTitle at h
  rcases hp : p.title with _ | (_ | v)
  · exact Or.inl rfl
  · exact Or.inr rfl
  · rw [hp] at h
    cases h

theorem isSome_false_none {β : Type} {o : Option β} (h : o.isSome = false) :
    o = none :=
  Option.not_isSome_iff_eq_none.mp (by simp [h])

/-- Per-field frame facts of one `applyTaskPatch`: the id is never written,
the version is always incremented by exactly 1, and every record field
whose spread does not fire keeps its current persisted value. -/
theorem applyTaskPatch_frame (p : TaskPatch) (a : Option (String × String))
    (r : TaskRec) :
    (applyTaskPatch p a r).id = r.id ∧
    (applyTaskPatch p a r).version = r.version + 1 ∧
    (touchesTitle p = false → (applyTaskPatch p a r).title = r.title) ∧
    (touchesDescription p = false →
      (applyTaskPatch p a r).description = r.description) ∧
    (touchesPriority p = false →
      (applyTaskPatch p a r).priority = r.priority) ∧
    (touchesStatus p = false → (applyTaskPatch p a r).status = r.status) ∧
    (touchesAssignee p a = false →
      (applyTaskPatch p a r).assignee = r.assignee) ∧
    (touchesTags p = false → (applyTaskPatch p a r).tags = r.tags) ∧
    (touchesDueDate p = false →
      (applyTaskPatch p a r).dueDate = r.dueDate) ∧
    (touchesAssistant a = false →
      (applyTaskPatch p a r).assistantId = r.assistantId) := by
  refine ⟨rfl, rfl, ?_, ?_, ?_, ?_, ?_, ?_, ?_, ?_⟩
  · intro h
    rcases touchesTitle_false_elim p h with h1 | h1 <;> simp [applyTaskPatch, h1]
  · intro h
    have h1 := isSome_false_none h
    simp [applyTaskPatch, h1]
  · intro h
    have h1 := isSome_false_none h
    simp [applyTaskPatch, h1]
  · intro h
    have h1 := isSome_false_none h
    simp [applyTaskPatch, h1]
  · intro h
    rw [touchesAssignee, Bool.or_eq_false_iff] at h
    have h1 := isSome_false_none h.1
    have h2 := isSome_false_none h.2
    simp [applyTaskPatch, h1, h2]
  · intro h
    have h1 := isSome_false_none h
    simp [applyTaskPatch, h1]
  · intro h
    have h1 := isSome_false_none h
    simp [applyTaskPatch, h1]
  · intro h
    have h1 := isSome_false_none (h : a.isSome = false)
    simp [applyTaskPatch, h1]

/-- C6: an auto-merge task update touches exactly the fields present in the
client's patch — every field whose spread does not fire keeps its current
persisted value — and this holds for any claimed version, stale ones
included: the update still succeeds with version `current + 1`. -/
theorem automerge_frame (asst : List (String × String)) (db : List TaskRec)
    (id : String) (v : ℚ) (p : TaskPatch) (cur : TaskRec)
    (hres : taskResolves asst p = true)
    (hfind : db.find? (fun r => r.id == id) = some cur) :
    ∃ res : TaskRec × List TaskRec,
      taskPut asst db id (some v) p = .ok res ∧
      res.1.id = cur.id ∧
      res.1.version = cur.version + 1 ∧
      (touchesTitle p = false → res.1.title = cur.title) ∧
      (touchesDescription p = false → res.1.description = cur.description) ∧
      (touchesPriority p = false → res.1.priority = cur.priority) ∧
      (touchesStatus p = false → res.1.status = cur.status) ∧
      (touchesAssignee p (taskAsst asst p) = false →
        res.1.assignee = cur.assignee) ∧
      (touchesTags p = false → res.1.tags = cur.tags) ∧
      (touchesDueDate p = false → res.1.dueDate = cur.dueDate) ∧
      (touchesAssistant (taskAsst asst p) = false →
        res.1.assistantId = cur.assistantId) := by
  obtain ⟨h1, h2, h3, h4, h5, h6, h7, h8, h9, h10⟩ :=
    applyTaskPatch_frame p (taskAsst asst p) cur
  exact ⟨_, taskPut_found asst db id v p cur hres hfind,
         h1, h2, h3, h4, h5, h6, h7, h8, h9, h10⟩

def tkStale : TaskRec :=
  ⟨"t2", "Old title", "", TaskPriority.LOW, TaskStatus.DONE, none, [],
   none, none, 10⟩

def pTitleX : TaskPatch :=
  ⟨some (some "X"), none, none, none, none, none, none, none⟩

theorem automerge_frame_witness :
    ∃ res : TaskRec × List TaskRec,
      taskPut [] [tkStale] "t2" (some 1) pTitleX = .ok res ∧
      res.1.status = tkStale.status ∧ res.1.version = tkStale.version + 1 := by
  obtain ⟨res, hok, _, hver, _, _, _, hstat, _, _, _, _⟩ :=
    automerge_frame [] [tkStale] "t2" 1 pTitleX tkStale (by decide) (by decide)
  exact ⟨res, hok, hstat (by decide), hver⟩

/-- Two patches (with their resolved assistant overrides) write disjoint
sets of record columns. -/
def DisjointPatches (p1 : TaskPatch) (a1 : Option (String × String))
    (p2 : TaskPatch) (a2 : Option (String × String)) : Prop :=
  (touchesTitle p1 = false ∨ touchesTitle p2 = false) ∧
  (touchesDescription p1 = false ∨ touchesDescription p2 = false) ∧
  (touchesPriority p1 = false ∨ touchesPriority p2 = false) ∧
  (touchesStatus p1 = false ∨ touchesStatus p2 = false) ∧
  (touchesAssignee p1 a1 = false ∨ touchesAssignee p2 a2 = false) ∧
  (touchesTags p1 = false ∨ touchesTags p2 = false) ∧
  (touchesDueDate p1 = false ∨ touchesDueDate p2 = false) ∧
  (touchesAssistant a1 = false ∨ touchesAssistant a2 = false)

/-- Two `applyTaskPatch` update objects with disjoint column footprints
commute on any row. -/
theorem applyTaskPatch_comm (p1 p2 : TaskPatch)
    (a1 a2 : Option (String × String)) (r : TaskRec)
    (hdisj : DisjointPatches p1 a1 p2 a2) :
    applyTaskPatch p2 a2 (applyTaskPatch p1 a1 r) =
      applyTaskPatch p1 a1 (applyTaskPatch p2 a2 r) := by
  obtain ⟨ht, hd, hp, hs, ha, htg, hdd, haa⟩ := hdisj
  unfold applyTaskPatch
  simp only [TaskRec.mk.injEq]
  refine ⟨trivial, ?_, ?_, ?_, ?_, ?_, ?_, ?_, ?_, trivial⟩
  · rcases ht with h | h <;>
      rcases touchesTitle_false_elim _ h with h1 | h1 <;> simp [h1]
  · rcases hd with h | h <;> simp [isSome_false_none h]
  · rcases hp with h | h <;> simp [isSome_false_none h]
  · rcases hs with h | h <;> simp [isSome_false_none h]
  · rcases ha with h | h <;>
      · rw [touchesAssignee, Bool.or_eq_false_iff] at h
        simp [isSome_false_none h.1, isSome_false_none h.2]
  · rcases htg with h | h <;> simp [isSome_false_none h]
  · rcases hdd with h | h <;> simp [isSome_false_none h]
  · rcases haa with h | h
    · have h1 := isSome_false_none (show a1.isSome = false from h)
      simp [h1]
    · have h1 := isSome_false_none (show a2.isSome = false from h)
      simp [h1]

/-- C5: for an existing task and two auto-merge patches with disjoint
column footprints, both claiming any versions and serialized through the
key's mutex in either order: both calls succeed, the final store and final
record are identical whichever patch runs first — neither edit is lost —
and the final version is the current version plus 2. -/
theorem automerge_disjoint_merge (asst : List (String × String))
    (db : List TaskRec) (id : String) (vA vB : ℚ) (pA pB : TaskPatch)
    (cur : TaskRec)
    (hresA : taskResolves asst pA = true)
    (hresB : taskResolves asst pB = true)
    (hfind : db.find? (fun r => r.id == id) = some cur)
    (hdisj : DisjointPatches pA (taskAsst asst pA) pB (taskAsst asst pB)) :
    ∃ resAB resBA : TaskRec × List TaskRec,
      taskPutSeq asst db id (some vA) pA (some vB) pB = .ok resAB ∧
      taskPutSeq asst db id (some vB) pB (some vA) pA = .ok resBA ∧
      resAB.1 = resBA.1 ∧ resAB.2 = resBA.2 ∧
      resAB.1.version = cur.version + 2 := by
  have hidA : ∀ r : TaskRec,
      (applyTaskPatch pA (taskAsst asst pA) r).id = r.id := fun _ => rfl
  have hidB : ∀ r : TaskRec,
      (applyTaskPatch pB (taskAsst asst pB) r).id = r.id := fun _ => rfl
  have h1 := taskPut_found asst db id vA pA cur hresA hfind
  have hfind1 := find?_map_patch TaskRec.id
    (applyTaskPatch pA (taskAsst asst pA)) hidA db id cur hfind
  have h2 := taskPut_found asst _ id vB pB _ hresB hfind1
  have h1' := taskPut_found asst db id vB pB cur hresB hfind
  have hfind1' := find?_map_patch TaskRec.id
    (applyTaskPatch pB (taskAsst asst pB)) hidB db id cur hfind
  have h2' := taskPut_found asst _ id vA pA _ hresA hfind1'
  have hseq1 : taskPutSeq asst db id (some vA) pA (some vB) pB =
      .ok (applyTaskPatch pB (taskAsst asst pB)
             (applyTaskPatch pA (taskAsst asst pA) cur),
           (db.map (fun r => if r.id == id then
               applyTaskPatch pA (taskAsst asst pA) r else r)).map
             (fun r => if r.id == id then
               applyTaskPatch pB (taskAsst asst pB) r else r)) := by
    unfold taskPutSeq
    rw [h1]
    exact h2
  have hseq2 : taskPutSeq asst db id (some vB) pB (some vA) pA =
      .ok (applyTaskPatch pA (taskAsst asst pA)
             (applyTaskPatch pB (taskAsst asst pB) cur),
           (db.map (fun r => if r.id == id then
               applyTaskPatch pB (taskAsst asst pB) r else r)).map
             (fun r => if r.id == id then
               applyTaskPatch pA (taskAsst asst pA) r else r)) := by
    unfold taskPutSeq
    rw [h1']
    exact h2'
  refine ⟨_, _, hseq1, hseq2, ?_, ?_, rfl⟩
  · exact applyTaskPatch_comm pA pB (taskAsst asst pA) (taskAsst asst pB)
      cur hdisj
  · show ((db.map (fun r => if r.id == id then
        applyTaskPatch pA (taskAsst asst pA) r else r)).map
          (fun r => if r.id == id then
            applyTaskPatch pB (taskAsst asst pB) r else r)) =
        ((db.map (fun r => if r.id == id then
          applyTaskPatch pB (taskAsst asst pB) r else r)).map
            (fun r => if r.id == id then
              applyTaskPatch pA (taskAsst asst pA) r else r))
    rw [map_patch_patch TaskRec.id (applyTaskPatch pA (taskAsst asst pA))
          (applyTaskPatch pB (taskAsst asst pB)) hidA db id,
        map_patch_patch TaskRec.id (applyTaskPatch pB (taskAsst asst pB))
          (applyTaskPatch pA (taskAsst asst pA)) hidB db id]
    apply List.map_congr_left
    intro r _
    by_cases h : (r.id == id) = true
    · rw [if_pos h, if_pos h]
      exact applyTaskPatch_comm pA pB (taskAsst asst pA) (taskAsst asst pB)
        r hdisj
    · rw [if_neg h, if_neg h]

def tkP6 : TaskRec :=
  ⟨"t3", "Laporan", "", TaskPriority.LOW, TaskStatus.TO_DO, none, [],
   none, none, 1⟩

def pStatusInProgress : TaskPatch :=
  ⟨none, none, none, some (some "In Progress"), none, none, none, none⟩

def pPriorityHigh : TaskPatch :=
  ⟨none, none, some (some "high"), none, none, none, none, none⟩

theorem automerge_disjoint_merge_witness :
    ∃ resAB resBA : TaskRec × List TaskRec,
      taskPutSeq [] [tkP6] "t3" (some 1) pStatusInProgress
        (some 1) pPriorityHigh = .ok resAB ∧
      taskPutSeq [] [tkP6] "t3" (some 1) pPriorityHigh
        (some 1) pStatusInProgress = .ok resBA ∧
      resAB.1 = resBA.1 ∧ resAB.2 = resBA.2 ∧
      resAB.1.version = tkP6.version + 2 :=
  automerge_disjoint_merge [] [tkP6] "t3" 1 1 pStatusInProgress
    pPriorityHigh tkP6 (by decide) (by decide) (by decide)
    (by unfold DisjointPatches; decide)

end VirtualLab
